import Mathlib

/-!
Verification of the numeric core of the `substreams` crate
(`src/substreams/src/scalar.rs`).

The two wrapper types `BigInt` (around `num_bigint::BigInt`) and
`BigDecimal` (around `bigdecimal::BigDecimal`) are shallowly embedded:

* a `BigInt` value is an unbounded `Int`;
* a `BigDecimal` value is a pair `(c, s)` of coefficient and scale,
  denoting the rational number `c * 10 ^ (-s)` (the representation the
  `bigdecimal` crate stores as `int_val`/`scale`);
* byte buffers are `List Nat` with every element `< 256` (a `u8`);
* strings are `List Nat` of Unicode code points;
* a Rust `panic!` is modelled by `Option.none` / a missing value.

Functions keep the names of the Rust items they embed; doc comments name
the source line ranges.
-/

namespace SubstreamsScalar

/-- Sign type of `num_bigint::Sign`: `Minus`, `NoSign` (zero) or `Plus`. -/
inductive Sign where
  | Minus : Sign
  | NoSign : Sign
  | Plus : Sign
deriving DecidableEq, Repr

/-- Sign of an `Int`, as `num_bigint` reports it for the wrapped value. -/
def intSign (v : Int) : Sign :=
  if v < 0 then Sign.Minus else if v = 0 then Sign.NoSign else Sign.Plus

/-- Value of a little-endian byte list, as accumulated by the loop
`n |= (b as u64) << shift_dist` of `TryFrom<&BigInt> for u64`
(scalar.rs:581-586) and by `num_bigint::BigInt::from_bytes_le`. -/
def fromLE : List Nat → Nat
  | [] => 0
  | b :: bs => b + 256 * fromLE bs

/-- Minimal little-endian byte list of a natural number (empty for zero);
the digit loop underlying `num_bigint`'s `to_bytes_le` magnitude output. -/
def natToBytesLE : Nat → List Nat
  | 0 => []
  | n + 1 => (n + 1) % 256 :: natToBytesLE ((n + 1) / 256)
decreasing_by exact Nat.div_lt_self (Nat.succ_pos n) (by omega)

/-- Magnitude bytes as `num_bigint::BigUint::to_bytes_le` returns them:
the zero magnitude is encoded as the single byte `0`, never as `[]`. -/
def magBytesLE (n : Nat) : List Nat :=
  if n = 0 then [0] else natToBytesLE n

/-- `BigInt::to_bytes_le` (scalar.rs:404-406): sign plus magnitude bytes,
little-endian. -/
def toBytesLE (v : Int) : Sign × List Nat :=
  (intSign v, magBytesLE v.natAbs)

/-- Error type `BigIntOutOfRangeError` (scalar.rs:339-345). -/
inductive BigIntOutOfRangeError where
  | Negative : BigIntOutOfRangeError
  | Overflow : BigIntOutOfRangeError
deriving DecidableEq, Repr

/-- `impl TryFrom<&BigInt> for u64` (scalar.rs:567-589): reject a minus
sign, reject more than 8 little-endian bytes, otherwise accumulate the
bytes into the 64-bit result. -/
def u64TryFrom (v : Int) : Except BigIntOutOfRangeError Nat :=
  let sb := toBytesLE v
  if sb.1 = Sign.Minus then Except.error BigIntOutOfRangeError.Negative
  else if sb.2.length > 8 then Except.error BigIntOutOfRangeError.Overflow
  else Except.ok (fromLE sb.2)

/-- `BigInt::div_rem` (scalar.rs:476-479), delegating to
`num_bigint::BigInt::div_rem`, which is truncated division exactly as on
Rust primitive integers: `Int.tdiv` / `Int.tmod`. -/
def divRem (a b : Int) : Int × Int :=
  (a.tdiv b, a.tmod b)

/-- `BigInt::absolute` (scalar.rs:472-474). -/
def absolute (v : Int) : Int := |v|

/-! ### Round-trip lemmas for the little-endian magnitude bytes -/

theorem fromLE_natToBytesLE (n : Nat) : fromLE (natToBytesLE n) = n := by
  induction n using Nat.strong_induction_on with
  | _ n ih =>
    match n with
    | 0 => simp [natToBytesLE, fromLE]
    | m + 1 =>
      rw [natToBytesLE, fromLE,
        ih ((m + 1) / 256) (Nat.div_lt_self (Nat.succ_pos m) (by omega))]
      omega

theorem fromLE_magBytesLE (n : Nat) : fromLE (magBytesLE n) = n := by
  unfold magBytesLE
  split
  · simp [fromLE]; omega
  · exact fromLE_natToBytesLE n

theorem natToBytesLE_lt (n : Nat) : n < 256 ^ (natToBytesLE n).length := by
  induction n using Nat.strong_induction_on with
  | _ n ih =>
    match n with
    | 0 => simp [natToBytesLE]
    | m + 1 =>
      rw [natToBytesLE]
      have h := ih ((m + 1) / 256) (Nat.div_lt_self (Nat.succ_pos m) (by omega))
      have hmul : ((m + 1) / 256 + 1) * 256 ≤ 256 ^ (natToBytesLE ((m + 1) / 256)).length * 256 :=
        Nat.mul_le_mul_right 256 (by omega)
      have : (m + 1) / 256 * 256 + 256 ≤ 256 ^ (natToBytesLE ((m + 1) / 256)).length * 256 := by
        omega
      calc m + 1 < ((m + 1) / 256) * 256 + 256 := by omega
      _ ≤ 256 ^ (natToBytesLE ((m + 1) / 256)).length * 256 := this
      _ = 256 ^ (List.length (((m+1) % 256) :: natToBytesLE ((m + 1) / 256))) := by
          rw [List.length_cons, pow_succ]

theorem natToBytesLE_le (n : Nat) (hn : n ≠ 0) :
    256 ^ ((natToBytesLE n).length - 1) ≤ n := by
  induction n using Nat.strong_induction_on with
  | _ n ih =>
    match n with
    | 0 => exact absurd rfl hn
    | m + 1 =>
      rw [natToBytesLE]
      by_cases hq : (m + 1) / 256 = 0
      · simp [hq, natToBytesLE]
      · have h := ih ((m + 1) / 256) (Nat.div_lt_self (Nat.succ_pos m) (by omega)) hq
        have hlen : 1 ≤ (natToBytesLE ((m + 1) / 256)).length := by
          rcases hk : (m + 1) / 256 with _ | k
          · exact absurd hk hq
          · rw [natToBytesLE]
            simp
        have : 256 ^ ((natToBytesLE ((m + 1) / 256)).length - 1) * 256 ≤ (m + 1) / 256 * 256 := by
          exact Nat.mul_le_mul_right 256 h
        calc 256 ^ ((((m+1) % 256) :: natToBytesLE ((m + 1) / 256)).length - 1)
            = 256 ^ ((natToBytesLE ((m + 1) / 256)).length - 1) * 256 := by
              rw [List.length_cons]
              have : ((natToBytesLE ((m + 1) / 256)).length + 1 - 1)
                  = ((natToBytesLE ((m + 1) / 256)).length - 1) + 1 := by omega
              rw [this, pow_succ]
        _ ≤ (m + 1) / 256 * 256 := this
        _ ≤ m + 1 := Nat.div_mul_le_self (m + 1) 256

theorem magBytesLE_length_le (n k : Nat) (hk : 1 ≤ k) (h : n < 256 ^ k) :
    (magBytesLE n).length ≤ k := by
  unfold magBytesLE
  split
  · simpa using hk
  · by_contra hc
    have h1 := natToBytesLE_le n (by assumption)
    have : k ≤ (natToBytesLE n).length - 1 := by omega
    have : (256 : Nat) ^ k ≤ 256 ^ ((natToBytesLE n).length - 1) :=
      Nat.pow_le_pow_right (by omega) this
    omega

theorem magBytesLE_length_gt (n k : Nat) (h : 256 ^ k ≤ n) (_hk : 1 ≤ k) :
    k < (magBytesLE n).length := by
  unfold magBytesLE
  have hn : n ≠ 0 := by
    have : 0 < 256 ^ k := Nat.pos_pow_of_pos k (by omega)
    omega
  rw [if_neg hn]
  by_contra hc
  have h1 := natToBytesLE_lt n
  have : (256 : Nat) ^ (natToBytesLE n).length ≤ 256 ^ k :=
    Nat.pow_le_pow_right (by omega) (by omega)
  omega

/-! ### C1 and C10: the `u64` conversion -/

theorem u64TryFrom_neg (v : Int) (hv : v < 0) :
    u64TryFrom v = Except.error BigIntOutOfRangeError.Negative := by
  simp [u64TryFrom, toBytesLE, intSign, hv]

theorem u64TryFrom_overflow (v : Int) (_hv0 : 0 ≤ v) (hv : 2 ^ 64 ≤ v) :
    u64TryFrom v = Except.error BigIntOutOfRangeError.Overflow := by
  have hsign : intSign v ≠ Sign.Minus := by
    unfold intSign
    rw [if_neg (by omega : ¬ v < 0)]
    split <;> simp
  have habs : (256 : Nat) ^ 8 ≤ v.natAbs := by
    have : ((2 : Int) ^ 64).toNat ≤ v.toNat := by
      exact Int.toNat_le_toNat hv
    simp at this
    omega
  have hlen := magBytesLE_length_gt v.natAbs 8 habs (by omega)
  simp only [u64TryFrom, toBytesLE]
  rw [if_neg hsign, if_pos (by omega)]

theorem u64TryFrom_ok (v : Int) (hv0 : 0 ≤ v) (hv : v < 2 ^ 64) :
    u64TryFrom v = Except.ok v.toNat := by
  have hsign : intSign v ≠ Sign.Minus := by
    unfold intSign
    rw [if_neg (by omega : ¬ v < 0)]
    split <;> simp
  have habs : v.natAbs < 256 ^ 8 := by
    have h1 : v.natAbs = v.toNat := by omega
    have : v.toNat < ((2 : Int) ^ 64).toNat := by
      omega
    simp at this
    omega
  have hlen := magBytesLE_length_le v.natAbs 8 (by omega) habs
  simp only [u64TryFrom, toBytesLE]
  rw [if_neg hsign, if_neg (by omega)]
  rw [fromLE_magBytesLE]
  congr 1
  omega

/-- C1: `u64::try_from(&BigInt)` returns `Err(Negative)` for every
negative value, `Err(Overflow)` for every non-negative value whose
magnitude needs more than 64 bits, and `Ok` with the exact numeric value
otherwise; in particular `u64::try_from(BigInt::from(-1))` fails with the
`Negative` kind.  The path is a recoverable `Result`, not a panic. -/
theorem u64_try_from_spec :
    (∀ v : Int, v < 0 → u64TryFrom v = Except.error BigIntOutOfRangeError.Negative)
    ∧ (∀ v : Int, 0 ≤ v → 2 ^ 64 ≤ v →
        u64TryFrom v = Except.error BigIntOutOfRangeError.Overflow)
    ∧ (∀ v : Int, 0 ≤ v → v < 2 ^ 64 → u64TryFrom v = Except.ok v.toNat)
    ∧ u64TryFrom (-1) = Except.error BigIntOutOfRangeError.Negative :=
  ⟨u64TryFrom_neg, u64TryFrom_overflow, u64TryFrom_ok, u64TryFrom_neg (-1) (by decide)⟩

/-- Witness for `u64_try_from_spec` at concrete inputs. -/
theorem u64_try_from_spec_witness :
    u64TryFrom (-7) = Except.error BigIntOutOfRangeError.Negative
    ∧ u64TryFrom 300 = Except.ok 300 :=
  ⟨u64_try_from_spec.1 (-7) (by decide),
   u64_try_from_spec.2.2.1 300 (by decide) (by decide)⟩

/-- C10: converting any `u64` into a `BigInt` and back through
`u64::try_from` is the identity; the boundary value `u64::MAX` occupies
exactly 8 little-endian bytes and is not rejected as `Overflow`. -/
theorem u64_round_trip :
    (∀ n : Nat, n < 2 ^ 64 → u64TryFrom (n : Int) = Except.ok n)
    ∧ (magBytesLE (2 ^ 64 - 1)).length = 8 := by
  constructor
  · intro n hn
    have h := u64TryFrom_ok (n : Int) (by omega) (by exact_mod_cast hn)
    simpa using h
  · have h1 : (magBytesLE (2 ^ 64 - 1)).length ≤ 8 :=
      magBytesLE_length_le _ 8 (by omega) (by norm_num)
    have h2 : 7 < (magBytesLE (2 ^ 64 - 1)).length :=
      magBytesLE_length_gt _ 7 (by norm_num) (by omega)
    omega

/-- Witness for `u64_round_trip` at the boundary input `u64::MAX`. -/
theorem u64_round_trip_witness :
    u64TryFrom ((2 ^ 64 - 1 : Nat) : Int) = Except.ok (2 ^ 64 - 1) :=
  u64_round_trip.1 (2 ^ 64 - 1) (by decide)

/-! ### C2: truncating division -/

theorem tmod_neg_left (a b : Int) : (-a).tmod b = -(a.tmod b) := by
  rw [Int.tmod_def, Int.tmod_def, Int.neg_tdiv]; ring

theorem natAbs_tmod_eq (a b : Int) : (a.tmod b).natAbs = a.natAbs % b.natAbs := by
  match a, b with
  | .ofNat m, .ofNat n =>
    simp only [Int.tmod, Int.ofNat_eq_coe, Int.natAbs_ofNat]
  | .ofNat m, .negSucc n =>
    simp only [Int.tmod, Int.ofNat_eq_coe, Int.natAbs_ofNat, Int.natAbs_negSucc]
  | .negSucc m, .ofNat n =>
    simp only [Int.tmod, Int.ofNat_eq_coe, Int.natAbs_ofNat, Int.natAbs_negSucc]
    omega
  | .negSucc m, .negSucc n =>
    simp only [Int.tmod, Int.ofNat_eq_coe, Int.natAbs_negSucc]
    omega

theorem sign_tmod_eq (a b : Int) (h : a.tmod b ≠ 0) : (a.tmod b).sign = a.sign := by
  rcases lt_trichotomy a 0 with ha | ha | ha
  · have h1 : a.tmod b ≤ 0 := by
      have h2 := Int.tmod_nonneg b (a := -a) (by omega)
      rw [tmod_neg_left] at h2
      omega
    rw [Int.sign_eq_neg_one_iff_neg.mpr (by omega), Int.sign_eq_neg_one_iff_neg.mpr (by omega)]
  · subst ha; rw [Int.zero_tmod] at h; exact absurd rfl h
  · have h1 : 0 ≤ a.tmod b := Int.tmod_nonneg b (by omega)
    rw [Int.sign_eq_one_iff_pos.mpr (by omega), Int.sign_eq_one_iff_pos.mpr (by omega)]

/-- C2: for `b ≠ 0`, `BigInt::div_rem(&a, &b)` returns `(q, r)` with
`a = b*q + r`, `|r| < |b|`, `|q| = |a| / |b|` (so `q` is the quotient
truncated toward zero) and `r = 0` or `sign r = sign a`; in particular
`div_rem(-20, 5) = (-4, 0)`. -/
theorem div_rem_spec :
    (∀ a b : Int, b ≠ 0 →
      a = b * (divRem a b).1 + (divRem a b).2
      ∧ (divRem a b).2.natAbs < b.natAbs
      ∧ (divRem a b).1.natAbs = a.natAbs / b.natAbs
      ∧ ((divRem a b).2 = 0 ∨ (divRem a b).2.sign = a.sign))
    ∧ divRem (-20) 5 = (-4, 0) := by
  constructor
  · intro a b hb
    refine ⟨?_, ?_, ?_, ?_⟩
    · have := Int.tmod_add_tdiv a b
      simp only [divRem]
      omega
    · simp only [divRem, natAbs_tmod_eq]
      exact Nat.mod_lt _ (by omega)
    · simp only [divRem, Int.natAbs_tdiv]
      rfl
    · by_cases h : a.tmod b = 0
      · exact Or.inl h
      · exact Or.inr (sign_tmod_eq a b h)
  · decide

/-- Witness for `div_rem_spec` at the concrete input `(-20, 5)`. -/
theorem div_rem_spec_witness :
    (-20 : Int) = 5 * (divRem (-20) 5).1 + (divRem (-20) 5).2
    ∧ (divRem (-20) 5).2.natAbs < (5 : Int).natAbs
    ∧ (divRem (-20) 5).1.natAbs = (-20 : Int).natAbs / (5 : Int).natAbs
    ∧ ((divRem (-20) 5).2 = 0 ∨ (divRem (-20) 5).2.sign = (-20 : Int).sign) :=
  div_rem_spec.1 (-20) 5 (by decide)

/-! ### The `BigDecimal` representation -/

/-- Representation stored by `bigdecimal::BigDecimal`: coefficient
`int_val` and decimal `scale`, denoting `c * 10 ^ (-s)`.  The repository
type `BigDecimal` (scalar.rs:23-24) wraps exactly this pair. -/
structure BigDecimal where
  c : Int
  s : Int
deriving DecidableEq, Repr

/-- Numeric value denoted by a `BigDecimal` representation. -/
def BigDecimal.val (d : BigDecimal) : ℚ := (d.c : ℚ) * (10 : ℚ) ^ (-d.s)

/-- Three-way integer comparison, as `num_bigint::BigInt`'s `Ord`. -/
def icmp (x y : Int) : Ordering :=
  if x < y then Ordering.lt else if x = y then Ordering.eq else Ordering.gt

/-- Three-way comparison of rational values (the specification side of
value-based ordering). -/
def ratCmp (x y : ℚ) : Ordering :=
  if x < y then Ordering.lt else if x = y then Ordering.eq else Ordering.gt

/-- Comparison of `bigdecimal::BigDecimal` values, as the crate's
`PartialEq`/`Ord` implement it (and hence the derived `PartialEq`/`Ord`
of the wrapper, scalar.rs:23): align the two scales by multiplying the
coefficient with the lower scale by the matching power of ten, then
compare coefficients. -/
def BigDecimal.cmp (a b : BigDecimal) : Ordering :=
  if a.s ≤ b.s then icmp (a.c * 10 ^ (b.s - a.s).toNat) b.c
  else icmp a.c (b.c * 10 ^ (a.s - b.s).toNat)

/-- `BigDecimal::new(digits, exp)` (scalar.rs:34-37): the caller-facing
exponent is negated into the crate's scale. -/
def BigDecimal.new (digits exp : Int) : BigDecimal := ⟨digits, -exp⟩

/-- `BigDecimal::zero()` (scalar.rs:43-45). -/
def BigDecimal.zeroD : BigDecimal := ⟨0, 0⟩

theorem val_mul_pow (d : BigDecimal) (t : Int) (h : d.s ≤ t) :
    ((d.c * 10 ^ (t - d.s).toNat : Int) : ℚ) = d.val * (10 : ℚ) ^ t := by
  have h10 : (10 : ℚ) ≠ 0 := by norm_num
  have hterm : ((10 : ℚ)) ^ ((t - d.s).toNat) = (10 : ℚ) ^ (t - d.s) := by
    rw [← zpow_natCast (10 : ℚ) (t - d.s).toNat, Int.toNat_of_nonneg (by omega)]
  push_cast
  rw [BigDecimal.val, hterm, mul_assoc, ← zpow_add₀ h10,
    show -d.s + t = t - d.s by omega]

theorem icmp_eq_ratCmp (x y : Int) (u v : ℚ)
    (hlt : x < y ↔ u < v) (heq : x = y ↔ u = v) : icmp x y = ratCmp u v := by
  unfold icmp ratCmp
  by_cases h1 : x < y
  · rw [if_pos h1, if_pos (hlt.mp h1)]
  · rw [if_neg h1, if_neg (fun hc => h1 (hlt.mpr hc))]
    by_cases h2 : x = y
    · rw [if_pos h2, if_pos (heq.mp h2)]
    · rw [if_neg h2, if_neg (fun hc => h2 (heq.mpr hc))]

theorem cmp_eq_ratCmp_val (a b : BigDecimal) :
    BigDecimal.cmp a b = ratCmp a.val b.val := by
  have hpos : ∀ t : Int, (0 : ℚ) < (10 : ℚ) ^ t := fun t => zpow_pos (by norm_num) t
  unfold BigDecimal.cmp
  by_cases h : a.s ≤ b.s
  · rw [if_pos h]
    have hb : ((b.c * 10 ^ (b.s - b.s).toNat : Int) : ℚ) = b.val * (10 : ℚ) ^ b.s :=
      val_mul_pow b b.s le_rfl
    simp at hb
    refine icmp_eq_ratCmp _ _ _ _ ?_ ?_
    · rw [← mul_lt_mul_right (hpos b.s), ← val_mul_pow a b.s h, ← hb]
      exact_mod_cast Iff.rfl
    · constructor
      · intro he
        have : ((a.c * 10 ^ (b.s - a.s).toNat : Int) : ℚ) = ((b.c : Int) : ℚ) := by
          exact_mod_cast congrArg (fun z : Int => (z : ℚ)) he
        rw [val_mul_pow a b.s h, hb] at this
        exact mul_right_cancel₀ (ne_of_gt (hpos b.s)) this
      · intro he
        have : a.val * (10 : ℚ) ^ b.s = b.val * (10 : ℚ) ^ b.s := by rw [he]
        rw [← val_mul_pow a b.s h, ← hb] at this
        exact_mod_cast this
  · rw [if_neg h]
    have ha : ((a.c * 10 ^ (a.s - a.s).toNat : Int) : ℚ) = a.val * (10 : ℚ) ^ a.s :=
      val_mul_pow a a.s le_rfl
    simp at ha
    refine icmp_eq_ratCmp _ _ _ _ ?_ ?_
    · rw [← mul_lt_mul_right (hpos a.s), ← val_mul_pow b a.s (by omega), ← ha]
      exact_mod_cast Iff.rfl
    · constructor
      · intro he
        have : ((a.c : Int) : ℚ) = ((b.c * 10 ^ (a.s - b.s).toNat : Int) : ℚ) := by
          exact_mod_cast congrArg (fun z : Int => (z : ℚ)) he
        rw [val_mul_pow b a.s (by omega), ha] at this
        exact mul_right_cancel₀ (ne_of_gt (hpos a.s)) this
      · intro he
        have : a.val * (10 : ℚ) ^ a.s = b.val * (10 : ℚ) ^ a.s := by rw [he]
        rw [← val_mul_pow b a.s (by omega), ← ha] at this
        exact_mod_cast this

/-- C5: `BigDecimal` equality and ordering compare numeric value, not the
raw `(coefficient, scale)` pair: the comparison used by the derived
`PartialEq`/`Ord` agrees with comparison of the denoted rationals, the
instance built from `c * 10^k` at exponent `e` equals the instance built
from `c` at exponent `e + k`, and coefficient 100 at scale 0 equals
coefficient 10 at scale -1. -/
theorem bigdecimal_value_equality :
    (∀ a b : BigDecimal, BigDecimal.cmp a b = ratCmp a.val b.val)
    ∧ (∀ (c e : Int) (k : Nat),
        BigDecimal.cmp (BigDecimal.new (c * 10 ^ k) e) (BigDecimal.new c (e + k)) = Ordering.eq)
    ∧ BigDecimal.cmp ⟨100, 0⟩ ⟨10, -1⟩ = Ordering.eq := by
  refine ⟨cmp_eq_ratCmp_val, ?_, ?_⟩
  · intro c e k
    rw [cmp_eq_ratCmp_val]
    have h10 : (10 : ℚ) ≠ 0 := by norm_num
    have hval : (BigDecimal.new (c * 10 ^ k) e).val = (BigDecimal.new c (e + k)).val := by
      unfold BigDecimal.new BigDecimal.val
      push_cast
      rw [neg_neg, neg_neg, mul_assoc, ← zpow_natCast (10 : ℚ) k, ← zpow_add₀ h10]
      ring_nf
    rw [hval]
    unfold ratCmp
    rw [if_neg (lt_irrefl _), if_pos rfl]
  · decide

/-! ### Division of `BigDecimal` values -/

/-- Decimal digits of a natural number, least-significant first (empty
for zero). -/
def natDigitsAux : Nat → List Nat
  | 0 => []
  | n + 1 => (n + 1) % 10 :: natDigitsAux ((n + 1) / 10)
decreasing_by exact Nat.div_lt_self (Nat.succ_pos n) (by omega)

/-- `count_decimal_digits` of the `bigdecimal` crate: number of decimal
digits of a magnitude, counting zero as one digit. -/
def decimalDigits (n : Nat) : Nat :=
  if n = 0 then 1 else (natDigitsAux n).length

/-- Most significant decimal digit of a natural number (0 for zero). -/
def leadingDigit (n : Nat) : Nat :=
  ((natDigitsAux n).getLast?).getD 0

/-- `get_rounding_term` of the `bigdecimal` crate: 1 when the leading
decimal digit of the next-digit estimate is at least 5, else 0
(round-half-up on the first dropped digit). -/
def roundingTerm (n : Nat) : Nat :=
  if n = 0 then 0 else if 5 ≤ leadingDigit n then 1 else 0

/-- The `while num < den { scale += 1; num *= 10 }` loop of the crate's
`impl_division`.  Callers guarantee `0 < num`; the guard repeats that
invariant so the recursion is well founded. -/
def scaleUp (num den : Nat) (scale : Int) : Nat × Int :=
  if h : 0 < num ∧ num < den then scaleUp (num * 10) den (scale + 1)
  else (num, scale)
termination_by den - num
decreasing_by omega

/-- The digit-producing loop of the crate's `impl_division`: while the
remainder is non-zero and precision remains, emit one quotient digit.
`fuel` is `max_precision - precision`. -/
def digitLoop (den : Nat) : Nat → Nat → Nat → Int → Nat × Nat × Int
  | 0, q, r, scale => (q, r, scale)
  | f + 1, q, r, scale =>
    if r = 0 then (q, r, scale)
    else digitLoop den f (q * 10 + r / den) (r % den * 10) (scale + 1)

/-- `impl_division(num, den, scale, max_precision)` of the `bigdecimal`
crate: strip signs, shift `num` up until it reaches `den`, take the first
quotient, then produce further digits up to `max_precision`, rounding
half-up on the first dropped digit.  Callers guarantee `den ≠ 0`. -/
def implDivision (num den : Int) (scale : Int) (maxPrecision : Nat) : BigDecimal :=
  if num = 0 then ⟨num, scale⟩
  else
    let sgn : Int := num.sign * den.sign
    let p := scaleUp num.natAbs den.natAbs scale
    let q0 := p.1 / den.natAbs
    let r0 := p.1 % den.natAbs
    if r0 = 0 then ⟨sgn * q0, p.2⟩
    else
      let t := digitLoop den.natAbs (maxPrecision - decimalDigits q0) q0 (r0 * 10) p.2
      let qF := if t.2.1 ≠ 0 then t.1 + roundingTerm (t.2.1 / den.natAbs) else t.1
      ⟨sgn * qF, t.2.2⟩

/-- `is_one` on a `bigdecimal::BigDecimal`: value equality with one. -/
def BigDecimal.isOne (d : BigDecimal) : Bool :=
  if BigDecimal.cmp d ⟨1, 0⟩ = Ordering.eq then true else false

/-- `impl Div for bigdecimal::BigDecimal` (the crate; callers guarantee
the divisor is non-zero): shortcut when the dividend is zero or the
divisor is one, shortcut on equal coefficients, otherwise long division
with the crate's default precision of 100 digits. -/
def crateDiv (a b : BigDecimal) : BigDecimal :=
  if a.c = 0 ∨ BigDecimal.isOne b = true then a
  else if a.c = b.c then ⟨1, a.s - b.s⟩
  else implDivision a.c b.c (a.s - b.s) 100

/-- `impl<T: Into<BigDecimal>> Div<T> for BigDecimal` (scalar.rs:307-321):
`panic!("attempt to divide by zero")` on a zero divisor, modelled as
`none`. -/
def bigDecimalDiv (a rhs : BigDecimal) : Option BigDecimal :=
  if rhs.c = 0 then none else some (crateDiv a rhs)

/-- `impl Div<&BigDecimal> for BigDecimal` (scalar.rs:323-333): panics on
a zero divisor. -/
def bigDecimalDivRef (a other : BigDecimal) : Option BigDecimal :=
  if other.c = 0 then none else some (crateDiv a other)

/-- `impl Div<BigDecimal> for BigInt` (scalar.rs:766-776): panics on a
zero divisor, then promotes the integer and divides. -/
def bigIntDivBigDecimal (x : Int) (other : BigDecimal) : Option BigDecimal :=
  if other.c = 0 then none else bigDecimalDiv ⟨x, 0⟩ other

/-- `impl Div<BigInt> for f32/f64` (scalar.rs:798-821): the right operand
is promoted to a `BigDecimal`, checked for zero (panic), then divided.
The float left operand enters as its already-bridged `BigDecimal`. -/
def floatDivBigInt (lhs : BigDecimal) (other : Int) : Option BigDecimal :=
  if (⟨other, 0⟩ : BigDecimal).c = 0 then none
  else bigDecimalDiv lhs ⟨other, 0⟩

/-- The Rust `as i64` cast of a `u64` value: reinterpret the low 64 bits
as two's complement, so values at or above `2^63` wrap to negatives. -/
def u64AsI64 (d : Nat) : Int :=
  if d % 2 ^ 64 < 2 ^ 63 then ((d % 2 ^ 64 : Nat) : Int)
  else ((d % 2 ^ 64 : Nat) : Int) - 2 ^ 64

/-- `BigDecimal::divide_by_decimals(amount, decimals)` (scalar.rs:87-90):
divide by `BigDecimal::new(1, decimals as i64)` — by `10 ^ decimals`
only while the `u64 -> i64` cast does not wrap. -/
def divideByDecimals (amount : BigDecimal) (decimals : Nat) : Option BigDecimal :=
  bigDecimalDiv amount (BigDecimal.new 1 (u64AsI64 decimals))

/-- `BigInt::to_decimal(decimals)` (scalar.rs:466-470): promote to
`BigDecimal`, then divide by `BigDecimal::new(1, decimals as i64)`. -/
def toDecimal (x : Int) (decimals : Nat) : Option BigDecimal :=
  bigDecimalDiv ⟨x, 0⟩ (BigDecimal.new 1 (u64AsI64 decimals))

/-! ### C8: division by a zero `BigDecimal` panics -/

/-- C8: every division path whose right-hand side is a zero-valued
`BigDecimal` — `BigDecimal / BigDecimal` (by-value and by-reference),
`BigInt / BigDecimal`, and the promoted `float / BigInt` path — is fatal
(`none`), never a value or recoverable error. -/
theorem div_by_zero_bigdecimal_panics :
    (∀ a b : BigDecimal, b.c = 0 → bigDecimalDiv a b = none)
    ∧ (∀ a b : BigDecimal, b.c = 0 → bigDecimalDivRef a b = none)
    ∧ (∀ (x : Int) (b : BigDecimal), b.c = 0 → bigIntDivBigDecimal x b = none)
    ∧ (∀ (l : BigDecimal) (y : Int), y = 0 → floatDivBigInt l y = none) := by
  refine ⟨?_, ?_, ?_, ?_⟩
  · intro a b hb; simp [bigDecimalDiv, hb]
  · intro a b hb; simp [bigDecimalDivRef, hb]
  · intro x b hb; simp [bigIntDivBigDecimal, hb]
  · intro l y hy; simp [floatDivBigInt, hy]

/-- Witness for `div_by_zero_bigdecimal_panics` at concrete inputs. -/
theorem div_by_zero_bigdecimal_panics_witness :
    bigDecimalDiv ⟨3, 0⟩ ⟨0, 2⟩ = none
    ∧ bigDecimalDivRef ⟨3, 0⟩ ⟨0, 2⟩ = none
    ∧ bigIntDivBigDecimal 3 ⟨0, 2⟩ = none
    ∧ floatDivBigInt ⟨3, 0⟩ 0 = none :=
  ⟨div_by_zero_bigdecimal_panics.1 _ _ rfl,
   div_by_zero_bigdecimal_panics.2.1 _ _ rfl,
   div_by_zero_bigdecimal_panics.2.2.1 _ _ rfl,
   div_by_zero_bigdecimal_panics.2.2.2 _ _ rfl⟩

/-! ### C9: dividing by a power of ten -/

theorem val_eq_zero_of_c_eq_zero (a : BigDecimal) (h : a.c = 0) : a.val = 0 := by
  rw [BigDecimal.val, h]
  simp

theorem crateDiv_coeff_one (a : BigDecimal) (bs : Int) :
    (crateDiv a ⟨1, bs⟩).val = a.val * (10 : ℚ) ^ bs := by
  have h10 : (10 : ℚ) ≠ 0 := by norm_num
  unfold crateDiv
  by_cases h0 : a.c = 0 ∨ BigDecimal.isOne ⟨1, bs⟩ = true
  · rw [if_pos h0]
    rcases h0 with h0 | h0
    · rw [val_eq_zero_of_c_eq_zero a h0]
      simp
    · have hone : (⟨1, bs⟩ : BigDecimal).val = (⟨1, 0⟩ : BigDecimal).val := by
        have := cmp_eq_ratCmp_val ⟨1, bs⟩ ⟨1, 0⟩
        rw [BigDecimal.isOne] at h0
        by_cases hc : BigDecimal.cmp ⟨1, bs⟩ ⟨1, 0⟩ = Ordering.eq
        · rw [hc] at this
          unfold ratCmp at this
          by_cases hlt : (⟨1, bs⟩ : BigDecimal).val < (⟨1, 0⟩ : BigDecimal).val
          · rw [if_pos hlt] at this; exact absurd this (by simp)
          · rw [if_neg hlt] at this
            by_cases heq : (⟨1, bs⟩ : BigDecimal).val = (⟨1, 0⟩ : BigDecimal).val
            · exact heq
            · rw [if_neg heq] at this; exact absurd this (by simp)
        · rw [if_neg hc] at h0; exact absurd h0 (by simp)
      have hpow : (10 : ℚ) ^ (-bs) = 1 := by
        have h1 : (⟨1, bs⟩ : BigDecimal).val = (10 : ℚ) ^ (-bs) := by
          rw [BigDecimal.val]; push_cast; ring
        have h2 : (⟨1, 0⟩ : BigDecimal).val = 1 := by
          rw [BigDecimal.val]; norm_num
        rw [h1, h2] at hone
        exact hone
      have hpow2 : (10 : ℚ) ^ bs = 1 := by
        rw [zpow_neg] at hpow
        rw [← inv_inv ((10 : ℚ) ^ bs), hpow]
        norm_num
      rw [hpow2, mul_one]
  · rw [if_neg h0]
    push_neg at h0
    obtain ⟨hc0, _⟩ := h0
    by_cases hc1 : a.c = 1
    · rw [if_pos (by simpa using hc1)]
      rw [BigDecimal.val, BigDecimal.val, hc1]
      push_cast
      rw [neg_sub, sub_eq_neg_add, zpow_add₀ h10]
      ring
    · rw [if_neg (by simpa using hc1)]
      unfold implDivision
      rw [if_neg hc0]
      have hnatAbs : (1 : Int).natAbs = 1 := rfl
      have hscale : scaleUp a.c.natAbs 1 (a.s - bs) = (a.c.natAbs, a.s - bs) := by
        rw [scaleUp, dif_neg]
        omega
      simp only [hnatAbs, hscale]
      rw [if_pos (by omega)]
      simp only [Nat.div_one]
      have hsgn : a.c.sign * Int.sign 1 * (a.c.natAbs : Int) = a.c := by
        rw [Int.sign_one, mul_one, Int.sign_mul_natAbs]
      rw [BigDecimal.val, BigDecimal.val]
      simp only [hsgn]
      rw [neg_sub, sub_eq_neg_add, zpow_add₀ h10]
      ring

theorem u64AsI64_small (n : Nat) (h : n < 2 ^ 63) : u64AsI64 n = (n : Int) := by
  unfold u64AsI64
  rw [Nat.mod_eq_of_lt (by omega), if_pos h]

theorem divideByDecimals_eq_div_pow (a : BigDecimal) (n : Nat) (hn : n < 2 ^ 63) :
    (divideByDecimals a n).map BigDecimal.val = some (a.val / (10 : ℚ) ^ n) := by
  unfold divideByDecimals bigDecimalDiv BigDecimal.new
  rw [u64AsI64_small n hn]
  rw [if_neg (by simp)]
  rw [Option.map_some']
  congr 1
  rw [show (⟨1, -(n : Int)⟩ : BigDecimal) = ⟨1, (-(n : Int) : Int)⟩ from rfl]
  rw [crateDiv_coeff_one a (-(n : Int))]
  rw [zpow_neg, zpow_natCast]
  rw [div_eq_mul_inv]

/-- The claim as frozen is false on the code: `divide_by_decimals` takes
the count as `u64` and converts it with `decimals as i64`, which wraps
at `2^63`; at count `2^63` the divisor becomes `10^(-2^63)`, so dividing
the value 1 yields `10^(2^63)`, not `1 / 10^(2^63)`. -/
theorem divide_by_decimals_wrap_counterexample :
    (divideByDecimals ⟨1, 0⟩ (2 ^ 63)).map BigDecimal.val
      ≠ some ((⟨1, 0⟩ : BigDecimal).val / (10 : ℚ) ^ (2 ^ 63 : Nat)) := by
  have hcast : u64AsI64 (2 ^ 63) = -(2 ^ 63) := by
    unfold u64AsI64
    rw [Nat.mod_eq_of_lt (by norm_num), if_neg (by omega)]
    push_cast
  have hval1 : (⟨1, 0⟩ : BigDecimal).val = 1 := by
    rw [BigDecimal.val]
    norm_num
  have heval : (divideByDecimals ⟨1, 0⟩ (2 ^ 63)).map BigDecimal.val
      = some ((10 : ℚ) ^ ((2 ^ 63 : Int))) := by
    unfold divideByDecimals bigDecimalDiv
    rw [hcast]
    rw [show BigDecimal.new 1 (-(2 ^ 63 : Int)) = ⟨1, (2 ^ 63 : Int)⟩ from by
      rw [BigDecimal.new, neg_neg]]
    rw [if_neg (show ¬(⟨1, (2 ^ 63 : Int)⟩ : BigDecimal).c = 0 from by norm_num),
      Option.map_some']
    rw [crateDiv_coeff_one ⟨1, 0⟩ (2 ^ 63 : Int), hval1, one_mul]
  have hexp : ((2 ^ 63 : Nat) : Int) = (2 ^ 63 : Int) := by
    push_cast
  have hzn : (10 : ℚ) ^ ((2 ^ 63 : Int)) = (10 : ℚ) ^ (2 ^ 63 : Nat) := by
    rw [← hexp, zpow_natCast]
  rw [heval]
  intro hcon
  rw [Option.some.injEq, hzn, hval1, one_div] at hcon
  have h1 : (1 : ℚ) < (10 : ℚ) ^ (2 ^ 63 : Nat) := one_lt_pow₀ (by norm_num) (by positivity)
  generalize hgen : (10 : ℚ) ^ (2 ^ 63 : Nat) = X at hcon h1
  have hne0 : X ≠ 0 := ne_of_gt (lt_trans one_pos h1)
  have hm : X * X⁻¹ = 1 := mul_inv_cancel₀ hne0
  rw [← hcon] at hm
  nlinarith

/-- C9 (amended: the claim as frozen fails at counts `>= 2^63`, where
the code's `decimals as i64` cast wraps): for every count `n < 2^63`,
`BigDecimal::divide_by_decimals(amount, n)` denotes `amount / 10^n` and
`BigInt::to_decimal(n)` denotes the same quotient as a `BigDecimal`;
dividing the `BigDecimal` value 112000000.5 by 5 decimals yields the
value 1120.000005. -/
theorem divide_by_decimals_spec :
    (∀ (a : BigDecimal) (n : Nat), n < 2 ^ 63 →
      (divideByDecimals a n).map BigDecimal.val = some (a.val / (10 : ℚ) ^ n))
    ∧ (∀ (x : Int) (n : Nat), n < 2 ^ 63 →
      (toDecimal x n).map BigDecimal.val = some ((x : ℚ) / (10 : ℚ) ^ n))
    ∧ (divideByDecimals ⟨1120000005, 1⟩ 5).map BigDecimal.val
      = some ((1120000005 : ℚ) / 1000000) := by
  refine ⟨divideByDecimals_eq_div_pow, ?_, ?_⟩
  · intro x n hn
    have h := divideByDecimals_eq_div_pow ⟨x, 0⟩ n hn
    unfold divideByDecimals at h
    unfold toDecimal
    rw [h]
    congr 1
    rw [BigDecimal.val]
    norm_num
  · rw [divideByDecimals_eq_div_pow ⟨1120000005, 1⟩ 5 (by norm_num)]
    congr 1
    rw [BigDecimal.val]
    norm_num

/-- Witness for `divide_by_decimals_spec` at a concrete non-wrapping
count. -/
theorem divide_by_decimals_spec_witness :
    (divideByDecimals ⟨7, 0⟩ 2).map BigDecimal.val
      = some ((⟨7, 0⟩ : BigDecimal).val / (10 : ℚ) ^ (2 : Nat)) :=
  divide_by_decimals_spec.1 ⟨7, 0⟩ 2 (by decide)

/-! ### Decimal strings: `Display` and `FromStr` -/

/-- Decimal digit values of `n`, most significant first (`[0]` for 0):
the digit sequence `to_str_radix(10)` produces. -/
def natToDigits (n : Nat) : List Nat :=
  if n = 0 then [0] else (natDigitsAux n).reverse

/-- Decimal string (code points) of a natural number. -/
def natToString (n : Nat) : List Nat :=
  (natToDigits n).map (fun d => d + 48)

/-- `Display for BigInt` (scalar.rs:353-357), i.e. `num_bigint`'s decimal
rendering: optional minus sign, then the magnitude digits. -/
def intToString (x : Int) : List Nat :=
  if x < 0 then 45 :: natToString x.natAbs else natToString x.natAbs

/-- ASCII decimal digit test. -/
def isDigitCh (ch : Nat) : Bool :=
  if 48 ≤ ch ∧ ch ≤ 57 then true else false

/-- Parse a non-empty all-digit string into a natural number. -/
def parseNat (cs : List Nat) : Option Nat :=
  if cs ≠ [] ∧ cs.all isDigitCh = true then
    some (cs.foldl (fun a ch => a * 10 + (ch - 48)) 0)
  else none

/-- `FromStr for BigInt` (scalar.rs:488-494), i.e. `num_bigint`'s
`from_str_radix(s, 10)`: an optional `+`/`-` sign followed by one or more
decimal digits; anything else is a parse error. -/
def intFromStr (cs : List Nat) : Option Int :=
  match cs with
  | [] => none
  | ch :: rest =>
    if ch = 43 then (parseNat rest).map Int.ofNat
    else if ch = 45 then (parseNat rest).map (fun n => -(Int.ofNat n))
    else (parseNat cs).map Int.ofNat

theorem natDigitsAux_lt (n : Nat) : ∀ d ∈ natDigitsAux n, d < 10 := by
  induction n using Nat.strong_induction_on with
  | _ n ih =>
    match n with
    | 0 => intro d hd; simp [natDigitsAux] at hd
    | m + 1 =>
      intro d hd
      rw [natDigitsAux] at hd
      rcases List.mem_cons.mp hd with h | h
      · omega
      · exact ih ((m + 1) / 10) (Nat.div_lt_self (Nat.succ_pos m) (by omega)) d h

theorem natDigitsAux_foldr (n : Nat) :
    (natDigitsAux n).foldr (fun d a => a * 10 + d) 0 = n := by
  induction n using Nat.strong_induction_on with
  | _ n ih =>
    match n with
    | 0 => simp [natDigitsAux]
    | m + 1 =>
      rw [natDigitsAux, List.foldr_cons,
        ih ((m + 1) / 10) (Nat.div_lt_self (Nat.succ_pos m) (by omega))]
      omega

theorem natToDigits_foldl (n : Nat) :
    (natToDigits n).foldl (fun a d => a * 10 + d) 0 = n := by
  unfold natToDigits
  split
  · simp; omega
  · rw [List.foldl_reverse]
    have : ∀ (l : List Nat) (b : Nat),
        l.foldr (fun x y => (fun a d => a * 10 + d) y x) b = l.foldr (fun d a => a * 10 + d) b := by
      intro l b
      induction l with
      | nil => rfl
      | cons x xs ihx => simp [List.foldr_cons, ihx]
    rw [this]
    exact natDigitsAux_foldr n

theorem natToDigits_lt (n : Nat) : ∀ d ∈ natToDigits n, d < 10 := by
  unfold natToDigits
  split
  · intro d hd; simp at hd; omega
  · intro d hd
    exact natDigitsAux_lt n d (List.mem_reverse.mp hd)

theorem natToDigits_ne_nil (n : Nat) : natToDigits n ≠ [] := by
  unfold natToDigits
  split
  · simp
  · match hm : n, (by assumption : n ≠ 0) with
    | m + 1, _ =>
      rw [natDigitsAux]
      simp

theorem natToString_mem (n : Nat) : ∀ ch ∈ natToString n, 48 ≤ ch ∧ ch ≤ 57 := by
  intro ch hch
  rcases List.mem_map.mp hch with ⟨d, hd, hdc⟩
  have := natToDigits_lt n d hd
  omega

theorem natToString_ne_nil (n : Nat) : natToString n ≠ [] := by
  unfold natToString
  intro h
  exact natToDigits_ne_nil n (List.map_eq_nil_iff.mp h)

theorem foldl_digits_map (ds : List Nat) (a : Nat) :
    (ds.map (fun d => d + 48)).foldl (fun a ch => a * 10 + (ch - 48)) a
      = ds.foldl (fun a d => a * 10 + d) a := by
  induction ds generalizing a with
  | nil => rfl
  | cons d rest ih =>
    simp only [List.map_cons, List.foldl_cons]
    rw [show d + 48 - 48 = d from by omega]
    exact ih (a * 10 + d)

theorem parseNat_natToString (n : Nat) : parseNat (natToString n) = some n := by
  have hall : (natToString n).all isDigitCh = true := by
    rw [List.all_eq_true]
    intro ch hch
    have := natToString_mem n ch hch
    unfold isDigitCh
    rw [if_pos this]
  unfold parseNat
  rw [if_pos ⟨natToString_ne_nil n, hall⟩]
  rw [natToString, foldl_digits_map, natToDigits_foldl]

/-- C7 (integer half, used below): string round trip for `BigInt`. -/
theorem intFromStr_intToString (x : Int) : intFromStr (intToString x) = some x := by
  by_cases hx : x < 0
  · unfold intToString
    rw [if_pos hx]
    simp only [intFromStr]
    rw [if_pos trivial, parseNat_natToString]
    show some (-(x.natAbs : Int)) = some x
    congr 1
    omega
  · unfold intToString
    rw [if_neg hx]
    cases hns : natToString x.natAbs with
    | nil => exact absurd hns (natToString_ne_nil _)
    | cons ch rest =>
      have hch : 48 ≤ ch ∧ ch ≤ 57 := natToString_mem x.natAbs ch (hns ▸ List.mem_cons_self ch rest)
      simp only [intFromStr]
      rw [if_neg (by omega : ¬ch = 43), if_neg (by omega : ¬ch = 45), ← hns,
        parseNat_natToString]
      simp only [Option.map_some', Option.some.injEq, Int.ofNat_eq_coe]
      omega

/-- Split a string at the first separator matched by `p`: the part
before it, and (when found) the part after it.  Models the
`s.find(..)` / `s.split_at(loc)` pattern of the `bigdecimal` parser. -/
def splitAtFirst (p : Nat → Bool) : List Nat → List Nat × Option (List Nat)
  | [] => ([], none)
  | ch :: rest =>
    if p ch then ([], some rest)
    else (ch :: (splitAtFirst p rest).1, (splitAtFirst p rest).2)

/-- `i64::from_str` for the exponent: sign and digits, within the `i64`
range. -/
def parseI64 (cs : List Nat) : Option Int :=
  (intFromStr cs).bind (fun v => if -(2 ^ 63) ≤ v ∧ v < 2 ^ 63 then some v else none)

/-- `FromStr for BigDecimal` (scalar.rs:139-145), i.e. the `bigdecimal`
crate's `from_str_radix(s, 10)`: split at the first `e`/`E` and parse the
exponent; split the base at the first `.`; parse the concatenated digit
string with the integer parser; the scale is the number of digits after
the point minus the exponent. -/
def decFromStr (cs : List Nat) : Option BigDecimal :=
  match splitAtFirst (fun ch => ch == 101 || ch == 69) cs with
  | (basePart, expTail) =>
    match (match expTail with
           | none => some 0
           | some tail => parseI64 tail) with
    | none => none
    | some expv =>
      if basePart = [] then none
      else
        match splitAtFirst (fun ch => ch == 46) basePart with
        | (lead, trailOpt) =>
          match intFromStr (lead ++ trailOpt.getD []) with
          | none => none
          | some iv => some ⟨iv, ((trailOpt.getD []).length : Int) - expv⟩

/-- Unsigned part of `Display for BigDecimal` (scalar.rs:121-125), i.e.
the `bigdecimal` crate's renderer: magnitude digits with the decimal
point inserted according to the scale — leading `0.` plus padding zeros
when the scale reaches past all digits, trailing zeros appended for a
negative scale, no point when the scale is zero. -/
def decCore (d : BigDecimal) : List Nat :=
  if (((natToString d.c.natAbs).length : Int)) ≤ d.s then
    [48, 46] ++ List.replicate (d.s - ((natToString d.c.natAbs).length : Int)).toNat 48
      ++ natToString d.c.natAbs
  else if d.s < 0 then
    natToString d.c.natAbs ++ List.replicate (-d.s).toNat 48
  else
    if (natToString d.c.natAbs).drop (((natToString d.c.natAbs).length : Int) - d.s).toNat = [] then
      (natToString d.c.natAbs).take (((natToString d.c.natAbs).length : Int) - d.s).toNat
    else
      (natToString d.c.natAbs).take (((natToString d.c.natAbs).length : Int) - d.s).toNat
        ++ [46] ++ (natToString d.c.natAbs).drop (((natToString d.c.natAbs).length : Int) - d.s).toNat

/-- `Display for BigDecimal`: the unsigned core with a leading minus for
a negative coefficient (`pad_integral`). -/
def decToString (d : BigDecimal) : List Nat :=
  if d.c < 0 then 45 :: decCore d else decCore d

theorem splitAtFirst_eq_none (p : Nat → Bool) (cs : List Nat)
    (h : ∀ ch ∈ cs, p ch = false) : splitAtFirst p cs = (cs, none) := by
  induction cs with
  | nil => rfl
  | cons ch rest ih =>
    rw [splitAtFirst, if_neg (by rw [h ch (List.mem_cons_self ch rest)]; simp),
      ih (fun c hc => h c (List.mem_cons_of_mem ch hc))]

theorem splitAtFirst_app (p : Nat → Bool) (xs ys : List Nat) (sep : Nat)
    (hxs : ∀ ch ∈ xs, p ch = false) (hsep : p sep = true) :
    splitAtFirst p (xs ++ sep :: ys) = (xs, some ys) := by
  induction xs with
  | nil => rw [List.nil_append, splitAtFirst, if_pos hsep]
  | cons ch rest ih =>
    rw [List.cons_append, splitAtFirst,
      if_neg (by rw [hxs ch (List.mem_cons_self ch rest)]; simp),
      ih (fun c hc => hxs c (List.mem_cons_of_mem ch hc))]

theorem decFromStr_eval (cs lead trail : List Nat) (iv : Int)
    (hsplitE : splitAtFirst (fun ch => ch == 101 || ch == 69) cs = (cs, none))
    (hne : cs ≠ [])
    (hsplitD : splitAtFirst (fun ch => ch == 46) cs = (lead, some trail))
    (hparse : intFromStr (lead ++ trail) = some iv) :
    decFromStr cs = some ⟨iv, (trail.length : Int)⟩ := by
  unfold decFromStr
  rw [hsplitE]
  simp only [if_neg hne, hsplitD, Option.getD_some, hparse, sub_zero]

theorem decFromStr_eval_nodot (cs : List Nat) (iv : Int)
    (hsplitE : splitAtFirst (fun ch => ch == 101 || ch == 69) cs = (cs, none))
    (hne : cs ≠ [])
    (hsplitD : splitAtFirst (fun ch => ch == 46) cs = (cs, none))
    (hparse : intFromStr cs = some iv) :
    decFromStr cs = some ⟨iv, 0⟩ := by
  unfold decFromStr
  rw [hsplitE]
  simp only [if_neg hne, hsplitD, Option.getD_none, List.append_nil, hparse]
  norm_num

theorem foldl_pstep_zeros (k : Nat) (a : Nat) :
    (List.replicate k 48).foldl (fun a ch => a * 10 + (ch - 48)) a = a * 10 ^ k := by
  induction k generalizing a with
  | zero => simp
  | succ m ih =>
    rw [List.replicate_succ, List.foldl_cons, ih]
    ring_nf

theorem foldl_pstep_natToString (n : Nat) :
    (natToString n).foldl (fun a ch => a * 10 + (ch - 48)) 0 = n := by
  rw [natToString, foldl_digits_map, natToDigits_foldl]

theorem parseNat_eval (cs : List Nat) (hne : cs ≠ [])
    (hdig : ∀ ch ∈ cs, 48 ≤ ch ∧ ch ≤ 57) :
    parseNat cs = some (cs.foldl (fun a ch => a * 10 + (ch - 48)) 0) := by
  have hall : cs.all isDigitCh = true := by
    rw [List.all_eq_true]
    intro ch hch
    unfold isDigitCh
    rw [if_pos (hdig ch hch)]
  unfold parseNat
  rw [if_pos ⟨hne, hall⟩]

theorem intFromStr_digit_head (cs : List Nat) (hne : cs ≠ [])
    (hdig : ∀ ch ∈ cs, 48 ≤ ch ∧ ch ≤ 57) :
    intFromStr cs = some (Int.ofNat (cs.foldl (fun a ch => a * 10 + (ch - 48)) 0)) := by
  cases cs with
  | nil => exact absurd rfl hne
  | cons ch rest =>
    have hch := hdig ch (List.mem_cons_self ch rest)
    simp only [intFromStr]
    rw [if_neg (by omega : ¬ch = 43), if_neg (by omega : ¬ch = 45),
      parseNat_eval _ hne hdig]
    rfl

theorem intFromStr_neg_head (cs : List Nat) (hne : cs ≠ [])
    (hdig : ∀ ch ∈ cs, 48 ≤ ch ∧ ch ≤ 57) :
    intFromStr (45 :: cs)
      = some (-(Int.ofNat (cs.foldl (fun a ch => a * 10 + (ch - 48)) 0))) := by
  simp only [intFromStr]
  rw [parseNat_eval _ hne hdig]
  norm_num

theorem foldl_pstep_zero_prefix (k : Nat) (A : List Nat) :
    ((48 : Nat) :: (List.replicate k 48 ++ A)).foldl (fun a ch => a * 10 + (ch - 48)) 0
      = A.foldl (fun a ch => a * 10 + (ch - 48)) 0 := by
  have h48 : ((48 : Nat) :: (List.replicate k 48 ++ A)) = List.replicate (k + 1) 48 ++ A := by
    rw [List.replicate_succ]
    rfl
  rw [h48, List.foldl_append, foldl_pstep_zeros, zero_mul]

theorem val_shift_zeros (c s : Int) (hs : s < 0) :
    BigDecimal.val ⟨c * 10 ^ (-s).toNat, 0⟩ = BigDecimal.val ⟨c, s⟩ := by
  rw [BigDecimal.val, BigDecimal.val]
  push_cast
  rw [neg_zero, zpow_zero, mul_one, ← zpow_natCast (10 : ℚ) (-s).toNat,
    Int.toNat_of_nonneg (by omega : (0 : Int) ≤ -s)]

theorem decFromStr_decToString (d : BigDecimal) :
    (decFromStr (decToString d)).map BigDecimal.val = some d.val := by
  have hAne : natToString d.c.natAbs ≠ [] := natToString_ne_nil _
  have hAdig : ∀ ch ∈ natToString d.c.natAbs, 48 ≤ ch ∧ ch ≤ 57 := natToString_mem _
  have hAfold : (natToString d.c.natAbs).foldl (fun a ch => a * 10 + (ch - 48)) 0
      = d.c.natAbs := foldl_pstep_natToString _
  set A := natToString d.c.natAbs with hA
  by_cases h1 : ((A.length : Int)) ≤ d.s
  · -- first case of the renderer: "0." ++ zeros ++ digits
    have hcore : decCore d = [48, 46] ++ List.replicate (d.s - (A.length : Int)).toNat 48 ++ A := by
      rw [decCore, ← hA, if_pos h1]
    set Z := List.replicate (d.s - (A.length : Int)).toNat 48 with hZ
    have hbody_dig : ∀ ch ∈ (48 : Nat) :: (Z ++ A), 48 ≤ ch ∧ ch ≤ 57 := by
      intro ch hch
      rcases List.mem_cons.mp hch with h | h
      · omega
      · rcases List.mem_append.mp h with h | h
        · have := List.eq_of_mem_replicate (hZ ▸ h); omega
        · exact hAdig ch h
    have hbody_fold : ((48 : Nat) :: (Z ++ A)).foldl (fun a ch => a * 10 + (ch - 48)) 0
        = d.c.natAbs := by
      rw [hZ, foldl_pstep_zero_prefix, hAfold]
    have hlen : ((Z ++ A).length : Int) = d.s := by
      rw [List.length_append, hZ, List.length_replicate]
      push_cast
      omega
    by_cases hneg : d.c < 0
    · have hstr : decToString d = [45, 48] ++ (46 :: (Z ++ A)) := by
        rw [decToString, if_pos hneg, hcore]
        rfl
      rw [hstr]
      have hE : ∀ ch ∈ ([45, 48] ++ (46 :: (Z ++ A)) : List Nat),
          ((ch == 101 : Bool) || ch == 69) = false := by
        intro ch hch
        have hle : ch ≤ 57 := by
          rcases List.mem_append.mp hch with h | h
          · simp at h; omega
          · rcases List.mem_cons.mp h with h | h
            · omega
            · have := hbody_dig ch (List.mem_cons_of_mem 48 h); omega
        simp
        omega
      have hsplitD : splitAtFirst (fun c => c == 46) ([45, 48] ++ (46 :: (Z ++ A)))
          = ([45, 48], some (Z ++ A)) := by
        refine splitAtFirst_app _ _ _ _ ?_ (by simp)
        intro ch hch
        simp at hch
        rcases hch with h | h <;> (subst h; simp)
      have hparse : intFromStr ([45, 48] ++ (Z ++ A)) = some d.c := by
        rw [show ([45, 48] : List Nat) ++ (Z ++ A) = 45 :: ((48 : Nat) :: (Z ++ A)) from rfl,
          intFromStr_neg_head _ (by simp) hbody_dig, hbody_fold]
        congr 1
        simp only [Int.ofNat_eq_coe]
        omega
      rw [decFromStr_eval _ _ _ _ (splitAtFirst_eq_none _ _ hE) (by simp) hsplitD hparse,
        Option.map_some']
      congr 1
      rw [hlen]
    · have hstr : decToString d = [48] ++ (46 :: (Z ++ A)) := by
        rw [decToString, if_neg hneg, hcore]
        rfl
      rw [hstr]
      have hE : ∀ ch ∈ ([48] ++ (46 :: (Z ++ A)) : List Nat),
          ((ch == 101 : Bool) || ch == 69) = false := by
        intro ch hch
        have hle : ch ≤ 57 := by
          rcases List.mem_append.mp hch with h | h
          · simp at h; omega
          · rcases List.mem_cons.mp h with h | h
            · omega
            · have := hbody_dig ch (List.mem_cons_of_mem 48 h); omega
        simp
        omega
      have hsplitD : splitAtFirst (fun c => c == 46) ([48] ++ (46 :: (Z ++ A)))
          = ([48], some (Z ++ A)) := by
        refine splitAtFirst_app _ _ _ _ ?_ (by simp)
        intro ch hch
        simp at hch
        subst hch
        simp
      have hparse : intFromStr ([48] ++ (Z ++ A)) = some d.c := by
        rw [show ([48] : List Nat) ++ (Z ++ A) = (48 : Nat) :: (Z ++ A) from rfl,
          intFromStr_digit_head _ (by simp) hbody_dig, hbody_fold]
        congr 1
        simp only [Int.ofNat_eq_coe]
        omega
      rw [decFromStr_eval _ _ _ _ (splitAtFirst_eq_none _ _ hE) (by simp) hsplitD hparse,
        Option.map_some']
      congr 1
      rw [hlen]
  · by_cases h2 : d.s < 0
    · -- negative scale: digits followed by zeros, no decimal point
      have hcore : decCore d = A ++ List.replicate (-d.s).toNat 48 := by
        rw [decCore, ← hA, if_neg h1, if_pos h2]
      set Zm := List.replicate (-d.s).toNat 48 with hZm
      have hbody_dig : ∀ ch ∈ A ++ Zm, 48 ≤ ch ∧ ch ≤ 57 := by
        intro ch hch
        rcases List.mem_append.mp hch with h | h
        · exact hAdig ch h
        · have := List.eq_of_mem_replicate (hZm ▸ h); omega
      have hbody_ne : A ++ Zm ≠ [] := by
        intro hcon
        exact hAne (List.append_eq_nil.mp hcon).1
      have hbody_fold : (A ++ Zm).foldl (fun a ch => a * 10 + (ch - 48)) 0
          = d.c.natAbs * 10 ^ (-d.s).toNat := by
        rw [hZm, List.foldl_append, foldl_pstep_zeros, hAfold]
      by_cases hneg : d.c < 0
      · have hstr : decToString d = 45 :: (A ++ Zm) := by
          rw [decToString, if_pos hneg, hcore]
        rw [hstr]
        have hE : ∀ ch ∈ (45 : Nat) :: (A ++ Zm),
            ((ch == 101 : Bool) || ch == 69) = false := by
          intro ch hch
          have hle : ch ≤ 57 := by
            rcases List.mem_cons.mp hch with h | h
            · omega
            · have := hbody_dig ch h; omega
          simp
          omega
        have hD : ∀ ch ∈ (45 : Nat) :: (A ++ Zm), ((ch == 46 : Bool)) = false := by
          intro ch hch
          rcases List.mem_cons.mp hch with h | h
          · subst h; simp
          · have := hbody_dig ch h; simp; omega
        have hparse : intFromStr ((45 : Nat) :: (A ++ Zm))
            = some (d.c * 10 ^ (-d.s).toNat) := by
          rw [intFromStr_neg_head _ hbody_ne hbody_dig, hbody_fold]
          congr 1
          push_cast [Int.ofNat_eq_coe]
          rw [abs_of_nonpos (by omega : d.c ≤ 0)]
          ring
        rw [decFromStr_eval_nodot _ _ (splitAtFirst_eq_none _ _ hE) (by simp)
          (splitAtFirst_eq_none _ _ hD) hparse, Option.map_some']
        congr 1
        exact val_shift_zeros d.c d.s h2
      · have hstr : decToString d = A ++ Zm := by
          rw [decToString, if_neg hneg, hcore]
        rw [hstr]
        have hE : ∀ ch ∈ A ++ Zm, ((ch == 101 : Bool) || ch == 69) = false := by
          intro ch hch
          have := hbody_dig ch hch
          simp
          omega
        have hD : ∀ ch ∈ A ++ Zm, ((ch == 46 : Bool)) = false := by
          intro ch hch
          have := hbody_dig ch hch
          simp
          omega
        have hparse : intFromStr (A ++ Zm) = some (d.c * 10 ^ (-d.s).toNat) := by
          rw [intFromStr_digit_head _ hbody_ne hbody_dig, hbody_fold]
          congr 1
          push_cast [Int.ofNat_eq_coe]
          rw [abs_of_nonneg (by omega : (0 : Int) ≤ d.c)]
        rw [decFromStr_eval_nodot _ _ (splitAtFirst_eq_none _ _ hE) hbody_ne
          (splitAtFirst_eq_none _ _ hD) hparse, Option.map_some']
        congr 1
        exact val_shift_zeros d.c d.s h2
    · -- scale between 0 and the digit count: point inside (or absent)
      set loc := ((A.length : Int) - d.s).toNat with hloc
      by_cases hdrop : A.drop loc = []
      · have hs0 : d.s = 0 := by
          have hl := List.length_drop loc A
          rw [hdrop] at hl
          simp at hl
          omega
        have htake : A.take loc = A := List.take_of_length_le (by omega)
        have hcore : decCore d = A := by
          rw [decCore, ← hA, if_neg h1, if_neg h2, ← hloc, if_pos hdrop, htake]
        by_cases hneg : d.c < 0
        · have hstr : decToString d = 45 :: A := by
            rw [decToString, if_pos hneg, hcore]
          rw [hstr]
          have hE : ∀ ch ∈ (45 : Nat) :: A, ((ch == 101 : Bool) || ch == 69) = false := by
            intro ch hch
            have hle : ch ≤ 57 := by
              rcases List.mem_cons.mp hch with h | h
              · omega
              · have := hAdig ch h; omega
            simp
            omega
          have hD : ∀ ch ∈ (45 : Nat) :: A, ((ch == 46 : Bool)) = false := by
            intro ch hch
            rcases List.mem_cons.mp hch with h | h
            · subst h; simp
            · have := hAdig ch h; simp; omega
          have hparse : intFromStr ((45 : Nat) :: A) = some d.c := by
            rw [intFromStr_neg_head _ hAne hAdig, hAfold]
            congr 1
            simp only [Int.ofNat_eq_coe]
            omega
          rw [decFromStr_eval_nodot _ _ (splitAtFirst_eq_none _ _ hE) (by simp)
            (splitAtFirst_eq_none _ _ hD) hparse, Option.map_some']
          congr 1
          rw [← hs0]
        · have hstr : decToString d = A := by
            rw [decToString, if_neg hneg, hcore]
          rw [hstr]
          have hE : ∀ ch ∈ A, ((ch == 101 : Bool) || ch == 69) = false := by
            intro ch hch
            have := hAdig ch hch
            simp
            omega
          have hD : ∀ ch ∈ A, ((ch == 46 : Bool)) = false := by
            intro ch hch
            have := hAdig ch hch
            simp
            omega
          have hparse : intFromStr A = some d.c := by
            rw [intFromStr_digit_head _ hAne hAdig, hAfold]
            congr 1
            simp only [Int.ofNat_eq_coe]
            omega
          rw [decFromStr_eval_nodot _ _ (splitAtFirst_eq_none _ _ hE) hAne
            (splitAtFirst_eq_none _ _ hD) hparse, Option.map_some']
          congr 1
          rw [← hs0]
      · have hcore : decCore d = A.take loc ++ (46 :: A.drop loc) := by
          rw [decCore, ← hA, if_neg h1, if_neg h2, ← hloc, if_neg hdrop]
          simp
        have htakedig : ∀ ch ∈ A.take loc, 48 ≤ ch ∧ ch ≤ 57 :=
          fun ch hch => hAdig ch (List.take_subset loc A hch)
        have hdropdig : ∀ ch ∈ A.drop loc, 48 ≤ ch ∧ ch ≤ 57 :=
          fun ch hch => hAdig ch (List.drop_subset loc A hch)
        have hlen : ((A.drop loc).length : Int) = d.s := by
          rw [List.length_drop]
          omega
        by_cases hneg : d.c < 0
        · have hstr : decToString d = (45 :: A.take loc) ++ (46 :: A.drop loc) := by
            rw [decToString, if_pos hneg, hcore]
            rfl
          rw [hstr]
          have hE : ∀ ch ∈ (45 :: A.take loc) ++ (46 :: A.drop loc),
              ((ch == 101 : Bool) || ch == 69) = false := by
            intro ch hch
            have hle : ch ≤ 57 := by
              rcases List.mem_append.mp hch with h | h
              · rcases List.mem_cons.mp h with h | h
                · omega
                · have := htakedig ch h; omega
              · rcases List.mem_cons.mp h with h | h
                · omega
                · have := hdropdig ch h; omega
            simp
            omega
          have hsplitD : splitAtFirst (fun c => c == 46)
              ((45 :: A.take loc) ++ (46 :: A.drop loc))
              = (45 :: A.take loc, some (A.drop loc)) := by
            refine splitAtFirst_app _ _ _ _ ?_ (by simp)
            intro ch hch
            rcases List.mem_cons.mp hch with h | h
            · subst h; simp
            · have := htakedig ch h; simp; omega
          have hparse : intFromStr ((45 :: A.take loc) ++ A.drop loc) = some d.c := by
            rw [show (45 :: A.take loc) ++ A.drop loc = 45 :: (A.take loc ++ A.drop loc) from rfl,
              List.take_append_drop, intFromStr_neg_head _ hAne hAdig, hAfold]
            congr 1
            simp only [Int.ofNat_eq_coe]
            omega
          rw [decFromStr_eval _ _ _ _ (splitAtFirst_eq_none _ _ hE) (by simp) hsplitD hparse,
            Option.map_some']
          congr 1
          rw [hlen]
        · have hstr : decToString d = A.take loc ++ (46 :: A.drop loc) := by
            rw [decToString, if_neg hneg, hcore]
          rw [hstr]
          have hE : ∀ ch ∈ A.take loc ++ (46 :: A.drop loc),
              ((ch == 101 : Bool) || ch == 69) = false := by
            intro ch hch
            have hle : ch ≤ 57 := by
              rcases List.mem_append.mp hch with h | h
              · have := htakedig ch h; omega
              · rcases List.mem_cons.mp h with h | h
                · omega
                · have := hdropdig ch h; omega
            simp
            omega
          have hsplitD : splitAtFirst (fun c => c == 46) (A.take loc ++ (46 :: A.drop loc))
              = (A.take loc, some (A.drop loc)) := by
            refine splitAtFirst_app _ _ _ _ ?_ (by simp)
            intro ch hch
            have := htakedig ch hch
            simp
            omega
          have hne2 : A.take loc ++ (46 :: A.drop loc) ≠ [] := by
            intro hcon
            exact absurd (List.append_eq_nil.mp hcon).2 (by simp)
          have hparse : intFromStr (A.take loc ++ A.drop loc) = some d.c := by
            rw [List.take_append_drop, intFromStr_digit_head _ hAne hAdig, hAfold]
            congr 1
            simp only [Int.ofNat_eq_coe]
            omega
          rw [decFromStr_eval _ _ _ _ (splitAtFirst_eq_none _ _ hE) hne2 hsplitD hparse,
            Option.map_some']
          congr 1
          rw [hlen]

/-- C7: the canonical decimal textual form is lossless under re-parsing:
`BigInt::from_str(&x.to_string()) == Ok(x)` for every `BigInt`, and
re-parsing the rendering of any `BigDecimal` yields a value equal to the
original (`Ok` of an equal value) for every `BigDecimal`. -/
theorem string_round_trip :
    (∀ x : Int, intFromStr (intToString x) = some x)
    ∧ (∀ d : BigDecimal, (decFromStr (decToString d)).map BigDecimal.val = some d.val) :=
  ⟨intFromStr_intToString, decFromStr_decToString⟩

/-! ### C4: `from_store_bytes` -/

/-- One step of `str::from_utf8` validation/decoding: given the first
byte and the remaining bytes, the code point it starts and the bytes
after it — rejecting stray continuation bytes, overlong encodings,
surrogates and code points beyond U+10FFFF. -/
def utf8Step (b : Nat) (rest : List Nat) : Option (Nat × List Nat) :=
  if b < 128 then some (b, rest)
  else if b < 194 then none
  else if b < 224 then
    match rest with
    | c1 :: rest2 =>
      if 128 ≤ c1 ∧ c1 < 192 then some ((b - 192) * 64 + (c1 - 128), rest2)
      else none
    | [] => none
  else if b < 240 then
    match rest with
    | c1 :: c2 :: rest2 =>
      if (128 ≤ c1 ∧ c1 < 192) ∧ (128 ≤ c2 ∧ c2 < 192)
          ∧ 2048 ≤ (b - 224) * 4096 + (c1 - 128) * 64 + (c2 - 128)
          ∧ ¬(55296 ≤ (b - 224) * 4096 + (c1 - 128) * 64 + (c2 - 128)
              ∧ (b - 224) * 4096 + (c1 - 128) * 64 + (c2 - 128) < 57344) then
        some ((b - 224) * 4096 + (c1 - 128) * 64 + (c2 - 128), rest2)
      else none
    | _ => none
  else if b < 245 then
    match rest with
    | c1 :: c2 :: c3 :: rest2 =>
      if (128 ≤ c1 ∧ c1 < 192) ∧ (128 ≤ c2 ∧ c2 < 192) ∧ (128 ≤ c3 ∧ c3 < 192)
          ∧ 65536 ≤ (b - 240) * 262144 + (c1 - 128) * 4096 + (c2 - 128) * 64 + (c3 - 128)
          ∧ (b - 240) * 262144 + (c1 - 128) * 4096 + (c2 - 128) * 64 + (c3 - 128)
            < 1114112 then
        some ((b - 240) * 262144 + (c1 - 128) * 4096 + (c2 - 128) * 64 + (c3 - 128), rest2)
      else none
    | _ => none
  else none

/-- Decoding loop with fuel; every step consumes at least the lead byte,
so fuel equal to the buffer length always suffices. -/
def utf8DecodeF : Nat → List Nat → Option (List Nat)
  | _, [] => some []
  | 0, _ :: _ => none
  | f + 1, b :: rest =>
    match utf8Step b rest with
    | none => none
    | some (cp, rest2) => (utf8DecodeF f rest2).map (fun s => cp :: s)

/-- `str::from_utf8` validation/decoding to code points. -/
def utf8Decode (cs : List Nat) : Option (List Nat) :=
  utf8DecodeF cs.length cs

/-- `BigInt::from_store_bytes` (scalar.rs:452-464): empty means zero;
otherwise the bytes must decode as UTF-8 (else panic) and parse with
`BigInt::from_str` (else panic). -/
def bigIntFromStoreBytes (bytes : List Nat) : Option Int :=
  if bytes = [] then some 0
  else
    match utf8Decode bytes with
    | none => none
    | some s =>
      match intFromStr s with
      | none => none
      | some v => some v

/-- `BigDecimal::from_store_bytes` (scalar.rs:71-85): empty means zero;
otherwise the bytes must decode as UTF-8 (else panic) and parse with
`BigDecimal::from_str` (else panic). -/
def decFromStoreBytes (bytes : List Nat) : Option BigDecimal :=
  if bytes = [] then some BigDecimal.zeroD
  else
    match utf8Decode bytes with
    | none => none
    | some s =>
      match decFromStr s with
      | none => none
      | some v => some v

theorem utf8Decode_ascii (bs : List Nat) (h : ∀ b ∈ bs, b < 128) :
    utf8Decode bs = some bs := by
  unfold utf8Decode
  induction bs with
  | nil => rfl
  | cons b rest ih =>
    rw [List.length_cons, utf8DecodeF]
    have hstep : utf8Step b rest = some (b, rest) := by
      unfold utf8Step
      rw [if_pos (h b (List.mem_cons_self b rest))]
    rw [hstep]
    show (utf8DecodeF rest.length rest).map (fun s => b :: s) = some (b :: rest)
    rw [ih (fun c hc => h c (List.mem_cons_of_mem b hc))]
    rfl

/-- C4: both `from_store_bytes` constructors treat an empty buffer as
zero; a non-empty all-ASCII buffer is handed to the same decimal-string
parser used for literals (so a valid decimal string yields its parsed
value and an invalid one panics); and non-UTF-8 or unparsable content is
fatal (`none`), never a recoverable error. -/
theorem from_store_bytes_spec :
    bigIntFromStoreBytes [] = some 0
    ∧ decFromStoreBytes [] = some BigDecimal.zeroD
    ∧ (∀ bs : List Nat, bs ≠ [] → (∀ b ∈ bs, b < 128) →
        bigIntFromStoreBytes bs = intFromStr bs)
    ∧ (∀ bs : List Nat, bs ≠ [] → (∀ b ∈ bs, b < 128) →
        decFromStoreBytes bs = decFromStr bs)
    ∧ (∀ bs : List Nat, bs ≠ [] → utf8Decode bs = none →
        bigIntFromStoreBytes bs = none ∧ decFromStoreBytes bs = none)
    ∧ (∀ bs s : List Nat, bs ≠ [] → utf8Decode bs = some s → intFromStr s = none →
        bigIntFromStoreBytes bs = none)
    ∧ (∀ bs s : List Nat, bs ≠ [] → utf8Decode bs = some s → decFromStr s = none →
        decFromStoreBytes bs = none) := by
  refine ⟨rfl, rfl, ?_, ?_, ?_, ?_, ?_⟩
  · intro bs hne hascii
    rw [bigIntFromStoreBytes, if_neg hne, utf8Decode_ascii bs hascii]
    show (match intFromStr bs with | none => none | some v => some v) = intFromStr bs
    cases intFromStr bs <;> rfl
  · intro bs hne hascii
    rw [decFromStoreBytes, if_neg hne, utf8Decode_ascii bs hascii]
    show (match decFromStr bs with | none => none | some v => some v) = decFromStr bs
    cases decFromStr bs <;> rfl
  · intro bs hne hdec
    constructor
    · rw [bigIntFromStoreBytes, if_neg hne, hdec]
    · rw [decFromStoreBytes, if_neg hne, hdec]
  · intro bs s hne hdec hparse
    rw [bigIntFromStoreBytes, if_neg hne, hdec]
    show (match intFromStr s with | none => none | some v => some v) = none
    rw [hparse]
  · intro bs s hne hdec hparse
    rw [decFromStoreBytes, if_neg hne, hdec]
    show (match decFromStr s with | none => none | some v => some v) = none
    rw [hparse]

/-- Witness for `from_store_bytes_spec`: the two-byte ASCII buffer
`"12"`. -/
theorem from_store_bytes_spec_witness :
    bigIntFromStoreBytes [49, 50] = intFromStr [49, 50]
    ∧ decFromStoreBytes [49, 50] = decFromStr [49, 50] :=
  ⟨from_store_bytes_spec.2.2.1 [49, 50] (by simp) (by decide),
   from_store_bytes_spec.2.2.2.1 [49, 50] (by simp) (by decide)⟩

/-! ### C6: the four binary byte codecs -/

/-- Little-endian encoding of `n mod 256^len` over exactly `len` bytes. -/
def natToBytesLEFixed : Nat → Nat → List Nat
  | _, 0 => []
  | n, l + 1 => n % 256 :: natToBytesLEFixed (n / 256) l

/-- `twos_complement_le` of `num_bigint`: in-place two's complement of a
byte buffer, i.e. the length-preserving little-endian encoding of
`256^len - value` modulo `256^len`. -/
def twosComplementLE (bs : List Nat) : List Nat :=
  natToBytesLEFixed ((256 ^ bs.length - fromLE bs % 256 ^ bs.length) % 256 ^ bs.length)
    bs.length

/-- `BigInt::to_signed_bytes_le` (scalar.rs:412-414), i.e. `num_bigint`'s
encoder: magnitude bytes; append a zero byte when the top bit is taken
(except for the exact `-2^(8k-1)` values); two's complement the buffer
when the value is negative. -/
def toSignedBytesLE (x : Int) : List Nat :=
  let bytes := magBytesLE x.natAbs
  let last := bytes.getLast?.getD 0
  let bytes2 :=
    if 127 < last ∧ ¬(last = 128 ∧ (∀ b ∈ bytes.dropLast, b = 0) ∧ x < 0)
    then bytes ++ [0] else bytes
  if x < 0 then twosComplementLE bytes2 else bytes2

/-- `BigInt::from_signed_bytes_le` (scalar.rs:392-394): empty is zero;
a set top bit means negative, decoded by two's-complementing the buffer
back into a magnitude. -/
def fromSignedBytesLE (bs : List Nat) : Int :=
  if bs = [] then 0
  else if 127 < bs.getLast?.getD 0 then -(fromLE (twosComplementLE bs) : Int)
  else (fromLE bs : Int)

/-- `BigInt::from_unsigned_bytes_le` (scalar.rs:385-390). -/
def fromUnsignedBytesLE (bs : List Nat) : Int := (fromLE bs : Int)

/-- `BigInt::from_unsigned_bytes_be` (scalar.rs:378-383); big-endian is
the byte-reversal of little-endian. -/
def fromUnsignedBytesBE (bs : List Nat) : Int := (fromLE bs.reverse : Int)

/-- `BigInt::to_bytes_be` (scalar.rs:408-410). -/
def toBytesBE (v : Int) : Sign × List Nat :=
  (intSign v, (magBytesLE v.natAbs).reverse)

/-- `BigInt::to_signed_bytes_be` (scalar.rs:416-418). -/
def toSignedBytesBE (x : Int) : List Nat := (toSignedBytesLE x).reverse

/-- `BigInt::from_signed_bytes_be` (scalar.rs:396-398). -/
def fromSignedBytesBE (bs : List Nat) : Int := fromSignedBytesLE bs.reverse

theorem natToBytesLEFixed_length (n l : Nat) : (natToBytesLEFixed n l).length = l := by
  induction l generalizing n with
  | zero => rfl
  | succ m ih => rw [natToBytesLEFixed, List.length_cons, ih]

theorem fromLE_natToBytesLEFixed (n l : Nat) :
    fromLE (natToBytesLEFixed n l) = n % 256 ^ l := by
  induction l generalizing n with
  | zero => simp [natToBytesLEFixed, fromLE, Nat.mod_one]
  | succ m ih =>
    rw [natToBytesLEFixed, fromLE, ih, pow_succ, mul_comm (256 ^ m) 256, Nat.mod_mul]

theorem natToBytesLEFixed_getLast (n l : Nat) (hl : 1 ≤ l) :
    (natToBytesLEFixed n l).getLast? = some (n / 256 ^ (l - 1) % 256) := by
  induction l generalizing n with
  | zero => omega
  | succ m ih =>
    rw [natToBytesLEFixed]
    by_cases hm : m = 0
    · subst hm
      simp [natToBytesLEFixed]
    · have hne : natToBytesLEFixed (n / 256) m ≠ [] := by
        intro hcon
        have := natToBytesLEFixed_length (n / 256) m
        rw [hcon] at this
        simp at this
        omega
      cases hfix : natToBytesLEFixed (n / 256) m with
      | nil => exact absurd hfix hne
      | cons a t =>
        rw [List.getLast?_cons_cons, ← hfix, ih (n / 256) (by omega)]
        rw [Nat.div_div_eq_div_mul]
        congr 3
        rw [← pow_succ']
        congr 1
        omega

theorem fromLE_append (xs ys : List Nat) :
    fromLE (xs ++ ys) = fromLE xs + 256 ^ xs.length * fromLE ys := by
  induction xs with
  | nil => simp [fromLE]
  | cons b t ih =>
    rw [List.cons_append, fromLE, fromLE, ih, List.length_cons, pow_succ]
    ring

theorem natToBytesLE_bytes_lt (n : Nat) : ∀ b ∈ natToBytesLE n, b < 256 := by
  induction n using Nat.strong_induction_on with
  | _ n ih =>
    match n with
    | 0 => intro b hb; simp [natToBytesLE] at hb
    | m + 1 =>
      intro b hb
      rw [natToBytesLE] at hb
      rcases List.mem_cons.mp hb with h | h
      · omega
      · exact ih ((m + 1) / 256) (Nat.div_lt_self (Nat.succ_pos m) (by omega)) b h

theorem natToBytesLE_ne_nil (n : Nat) (hn : n ≠ 0) : natToBytesLE n ≠ [] := by
  intro hcon
  have h1 := fromLE_natToBytesLE n
  rw [hcon] at h1
  simp [fromLE] at h1
  omega

theorem magBytesLE_ne_nil (n : Nat) : magBytesLE n ≠ [] := by
  unfold magBytesLE
  split
  · simp
  · exact natToBytesLE_ne_nil n (by assumption)

theorem natToBytesLE_getLast (n : Nat) (hn : n ≠ 0) :
    (natToBytesLE n).getLast? = some (n / 256 ^ ((natToBytesLE n).length - 1)) := by
  induction n using Nat.strong_induction_on with
  | _ n ih =>
    match n with
    | 0 => exact absurd rfl hn
    | m + 1 =>
      rw [natToBytesLE]
      by_cases hq : (m + 1) / 256 = 0
      · rw [hq]
        simp [natToBytesLE]
        omega
      · have hne : natToBytesLE ((m + 1) / 256) ≠ [] := natToBytesLE_ne_nil _ hq
        cases hfix : natToBytesLE ((m + 1) / 256) with
        | nil => exact absurd hfix hne
        | cons a t =>
          rw [List.getLast?_cons_cons, ← hfix,
            ih ((m + 1) / 256) (Nat.div_lt_self (Nat.succ_pos m) (by omega)) hq,
            Nat.div_div_eq_div_mul]
          have hlen : 1 ≤ (natToBytesLE ((m + 1) / 256)).length := by
            rw [hfix]; simp
          congr 2
          rw [← pow_succ']
          congr 1
          rw [List.length_cons]
          omega

theorem fromLE_all_zero (bs : List Nat) (h : ∀ b ∈ bs, b = 0) : fromLE bs = 0 := by
  induction bs with
  | nil => rfl
  | cons b t ih =>
    rw [fromLE, h b (List.mem_cons_self b t), ih (fun c hc => h c (List.mem_cons_of_mem b hc))]

/-- Decoding the `len`-byte two's complement of `n` yields `-n`. -/
theorem fromSignedBytesLE_neg_encode (n len : Nat) (hlen : 1 ≤ len) (hn : 1 ≤ n)
    (hbound : n ≤ 128 * 256 ^ (len - 1)) :
    fromSignedBytesLE (natToBytesLEFixed (256 ^ len - n) len) = -(n : Int) := by
  have hpow : 256 ^ len = 256 ^ (len - 1) * 256 := by
    rw [← pow_succ]
    congr 1
    omega
  have hmlt : 256 ^ len - n < 256 ^ len := by
    have : 0 < 256 ^ len := Nat.pos_pow_of_pos len (by omega)
    omega
  have hnlt : n < 256 ^ len := by omega
  have hne : natToBytesLEFixed (256 ^ len - n) len ≠ [] := by
    intro hcon
    have := natToBytesLEFixed_length (256 ^ len - n) len
    rw [hcon] at this
    simp at this
    omega
  have hlast : (natToBytesLEFixed (256 ^ len - n) len).getLast?
      = some ((256 ^ len - n) / 256 ^ (len - 1) % 256) :=
    natToBytesLEFixed_getLast _ len hlen
  have hdivlt : (256 ^ len - n) / 256 ^ (len - 1) < 256 := by
    rw [Nat.div_lt_iff_lt_mul (Nat.pos_pow_of_pos _ (by omega))]
    omega
  have hdivge : 128 ≤ (256 ^ len - n) / 256 ^ (len - 1) := by
    rw [Nat.le_div_iff_mul_le (Nat.pos_pow_of_pos _ (by omega))]
    omega
  rw [fromSignedBytesLE, if_neg hne, hlast]
  rw [if_pos (by simp only [Option.getD_some]; omega)]
  have hinner : fromLE (natToBytesLEFixed (256 ^ len - n) len) = 256 ^ len - n := by
    rw [fromLE_natToBytesLEFixed, Nat.mod_eq_of_lt hmlt]
  rw [twosComplementLE, natToBytesLEFixed_length, hinner, Nat.mod_eq_of_lt hmlt,
    show 256 ^ len - (256 ^ len - n) = n by omega,
    Nat.mod_eq_of_lt hnlt, fromLE_natToBytesLEFixed, Nat.mod_eq_of_lt hnlt]

/-- C6: the four byte codecs round-trip: the unsigned pairs reproduce the
absolute value, the signed (two's complement) pairs reproduce the value
itself, in both endiannesses. -/
theorem byte_codec_round_trip :
    (∀ x : Int, fromUnsignedBytesBE (toBytesBE x).2 = absolute x)
    ∧ (∀ x : Int, fromUnsignedBytesLE (toBytesLE x).2 = absolute x)
    ∧ (∀ x : Int, fromSignedBytesBE (toSignedBytesBE x) = x)
    ∧ (∀ x : Int, fromSignedBytesLE (toSignedBytesLE x) = x) := by
  have hle : ∀ x : Int, fromSignedBytesLE (toSignedBytesLE x) = x := by
    intro x
    rw [toSignedBytesLE]
    by_cases hx : x < 0
    · have hn0 : x.natAbs ≠ 0 := by omega
      have hmag : magBytesLE x.natAbs = natToBytesLE x.natAbs := by
        rw [magBytesLE, if_neg hn0]
      have hlast : (magBytesLE x.natAbs).getLast?
          = some (x.natAbs / 256 ^ ((natToBytesLE x.natAbs).length - 1)) := by
        rw [hmag]
        exact natToBytesLE_getLast x.natAbs hn0
      set L := (natToBytesLE x.natAbs).length with hL
      have hLpos : 1 ≤ L := by
        rcases hk : x.natAbs with _ | k
        · omega
        · rw [hL, hk, natToBytesLE]
          simp
      have hlb := natToBytesLE_le x.natAbs hn0
      have hub := natToBytesLE_lt x.natAbs
      rw [← hL] at hlb hub
      rw [if_pos hx]
      by_cases hcond : 127 < (magBytesLE x.natAbs).getLast?.getD 0
          ∧ ¬((magBytesLE x.natAbs).getLast?.getD 0 = 128
              ∧ (∀ b ∈ (magBytesLE x.natAbs).dropLast, b = 0) ∧ x < 0)
      · -- extended by one zero byte
        rw [if_pos hcond]
        have hfle : fromLE (magBytesLE x.natAbs ++ [0]) = x.natAbs := by
          rw [fromLE_append, fromLE_magBytesLE]
          simp [fromLE]
        have hlen2 : (magBytesLE x.natAbs ++ [0]).length = L + 1 := by
          rw [List.length_append, hmag]
          simp
        have hpowL : (256 : Nat) ^ (L + 1) = 256 ^ L * 256 := pow_succ 256 L
        have h1lt : x.natAbs < 256 ^ (L + 1) := by omega
        have h2lt : 256 ^ (L + 1) - x.natAbs < 256 ^ (L + 1) := by omega
        rw [twosComplementLE, hlen2, hfle, Nat.mod_eq_of_lt h1lt, Nat.mod_eq_of_lt h2lt,
          fromSignedBytesLE_neg_encode x.natAbs (L + 1) (by omega) (by omega)
            (by simp only [Nat.add_sub_cancel]; omega)]
        omega
      · -- not extended
        rw [if_neg hcond]
        have hlenm : (magBytesLE x.natAbs).length = L := by rw [hmag]
        have hne2 : magBytesLE x.natAbs ≠ [] := by
          intro hcon
          rw [hcon] at hlenm
          simp at hlenm
          omega
        have hlast' : (magBytesLE x.natAbs).getLast?.getD 0
            = x.natAbs / 256 ^ (L - 1) := by
          rw [hlast]
          rfl
        have hbnd : x.natAbs ≤ 128 * 256 ^ (L - 1) := by
          rcases not_and_or.mp hcond with h | h
          · -- top byte at most 127
            rw [hlast'] at h
            have h2 : x.natAbs < 128 * 256 ^ (L - 1) := by
              have := (Nat.div_lt_iff_lt_mul
                (Nat.pos_pow_of_pos (L - 1) (by omega))).mp
                (by omega : x.natAbs / 256 ^ (L - 1) < 128)
              omega
            omega
          · -- the exact -(128 * 256^(L-1)) case
            rw [not_not] at h
            obtain ⟨h128, hzero, _⟩ := h
            have hglv : (magBytesLE x.natAbs).getLast hne2 = 128 := by
              have hgl := List.getLast?_eq_getLast (magBytesLE x.natAbs) hne2
              rw [hlast] at hgl
              rw [hlast'] at h128
              rw [Option.some.injEq] at hgl
              omega
            have hfrom : fromLE ((magBytesLE x.natAbs).dropLast
                ++ [(magBytesLE x.natAbs).getLast hne2]) = x.natAbs := by
              rw [List.dropLast_append_getLast hne2, fromLE_magBytesLE]
            rw [fromLE_append, fromLE_all_zero _ hzero, hglv, List.length_dropLast,
              hlenm] at hfrom
            have h128v : fromLE [128] = 128 := by
              rw [fromLE, fromLE]
            rw [h128v] at hfrom
            omega
        have hfle : fromLE (magBytesLE x.natAbs) = x.natAbs := fromLE_magBytesLE _
        have hpos : 0 < (256 : Nat) ^ L := Nat.pos_pow_of_pos L (by omega)
        have hpowL : (256 : Nat) ^ L = 256 ^ (L - 1) * 256 := by
          rw [← pow_succ]
          congr 1
          omega
        have h1lt : x.natAbs < 256 ^ L := by omega
        have h2lt : 256 ^ L - x.natAbs < 256 ^ L := by omega
        rw [twosComplementLE, hlenm, hfle, Nat.mod_eq_of_lt h1lt, Nat.mod_eq_of_lt h2lt,
          fromSignedBytesLE_neg_encode x.natAbs L hLpos (by omega) hbnd]
        omega
    · -- non-negative
      rw [if_neg hx]
      by_cases hcond : 127 < (magBytesLE x.natAbs).getLast?.getD 0
          ∧ ¬((magBytesLE x.natAbs).getLast?.getD 0 = 128
              ∧ (∀ b ∈ (magBytesLE x.natAbs).dropLast, b = 0) ∧ x < 0)
      · rw [if_pos hcond]
        rw [fromSignedBytesLE, if_neg (by simp), List.getLast?_concat]
        rw [if_neg (by simp)]
        rw [fromLE_append, fromLE_magBytesLE]
        simp [fromLE]
        omega
      · rw [if_neg hcond]
        have hne : magBytesLE x.natAbs ≠ [] := magBytesLE_ne_nil x.natAbs
        have hle127 : (magBytesLE x.natAbs).getLast?.getD 0 ≤ 127 := by
          by_contra hgt
          exact hcond ⟨by omega, by
            intro ⟨_, _, hxneg⟩
            omega⟩
        rw [fromSignedBytesLE, if_neg hne, if_neg (by omega), fromLE_magBytesLE]
        omega
  refine ⟨?_, ?_, ?_, hle⟩
  · intro x
    rw [fromUnsignedBytesBE, toBytesBE]
    simp only [List.reverse_reverse]
    rw [fromLE_magBytesLE, absolute, Int.abs_eq_natAbs]
  · intro x
    rw [fromUnsignedBytesLE, toBytesLE]
    simp only
    rw [fromLE_magBytesLE, absolute, Int.abs_eq_natAbs]
  · intro x
    rw [fromSignedBytesBE, toSignedBytesBE, List.reverse_reverse]
    exact hle x

end SubstreamsScalar
